import Mathlib

/-!
Verification of the `wgo` file-watch supervisor (bokwoon95/wgo).

This file gives a shallow embedding, in Lean 4, of the pure decision logic of
the repository: the argument parser that splits an argv into supervisor
instances and command chains (`WgoCommands` / `WgoCommand` in wgo_cmd.go), the
pattern compiler with its dot-literal sugar (`compileRegexp`), the path
matcher (`WgoCmd.match`), the POSIX and Windows argv quoters (`joinArgs` in
util_unix.go / util_windows.go), and the per-event decision logic of the
supervisor event loop (`WgoCmd.Run`).

Strings are modelled as `List Char` (Go iterates runes; all inputs of
interest are ASCII).  Paths are modelled for the POSIX build of the code,
where `filepath.ToSlash` is the identity and the separator is `/`.
-/

/-- Convert a Lean string literal to the `List Char` representation used
throughout this development. -/
def str (s : String) : List Char := s.data

/-- A token of the argument vector (one Go `string`). -/
abbrev Tok := List Char

/-- One command invocation: `[cmd, arg1, arg2, ...]`. -/
abbrev Argv := List Tok

/-- A chain of commands: the Go field `WgoCmd.ArgsList`. -/
abbrev Chain := List Argv

/-! ## Argument parser: wgo_cmd.go `WgoCommands` / `WgoCommand` -/

/-- Embeds the colon-unescape step of `WgoCommand` (wgo_cmd.go:346-356):
a token of three or more characters that consists only of colons loses
exactly one leading colon (`:::` becomes `::`, `::::` becomes `:::`). -/
def colonUnescape (arg : Tok) : Tok :=
  let allColons : Bool := decide (arg.length > 2) && arg.all (fun c => c = ':')
  if allColons then arg.drop 1 else arg

/-- Embeds `wgoCmd.ArgsList[n] = append(wgoCmd.ArgsList[n], arg)` with
`n = len(wgoCmd.ArgsList)-1` (wgo_cmd.go:359-360): append a token to the last
argv of the chain.  The chain is never empty at this point in the source; for
totality an empty chain gets a fresh singleton argv. -/
def appendLast (chain : Chain) (arg : Tok) : Chain :=
  chain.dropLast ++ [(chain.getLast?.getD []) ++ [arg]]

/-- Embeds the loop over positional arguments of `WgoCommand`
(wgo_cmd.go:339-361): a literal `::` token starts a new argv, every other
token is colon-unescaped and appended to the last argv of the chain. -/
def chainFold (chain : Chain) : List Tok → Chain
  | [] => chain
  | arg :: rest =>
    if arg = str "::" then chainFold (chain ++ [[]]) rest
    else chainFold (appendLast chain (colonUnescape arg)) rest

/-- Embeds the chain-construction block of `WgoCommand` (wgo_cmd.go:310-361),
parameterised over the values the surrounding code has already computed:
`isRun` (wgo_cmd.go:187), the accumulated string build-flag tokens
`strFlagValues` and the selected boolean build-flag tokens `boolFlagToks`
(wgo_cmd.go:254-269, 327-332), the generated executable path
`wgoCmd.executablePath` (wgo_cmd.go:322-325), and the positional arguments
`flagArgs = flagset.Args()` (wgo_cmd.go:310).  In run mode the chain is
seeded with `[buildArgs, runArgs]` and the package is consumed; otherwise it
is seeded with a single empty argv; the remaining positional tokens are then
folded in by `chainFold`. -/
def wgoCommandArgsList (isRun : Bool) (strFlagValues boolFlagToks : List Tok)
    (execPath : Tok) (flagArgs : List Tok) : Except String Chain :=
  if isRun then
    match flagArgs with
    | [] => Except.error "wgo run: package not provided"
    | pkg :: progArgs =>
      let buildArgs : Argv :=
        str "go" :: str "build" :: str "-o" :: execPath ::
          (strFlagValues ++ boolFlagToks ++ [pkg])
      let runArgs : Argv := [execPath]
      Except.ok (chainFold [buildArgs, runArgs] progArgs)
  else
    Except.ok (chainFold [[]] flagArgs)

/-- Embeds the instance-splitting loop of `WgoCommands` (wgo_cmd.go:143-172):
`acc` is the current slice `args[i:j]`, the remaining tokens are scanned for
an adjacent `"::", "wgo"` pair (the guard `j+1 >= len(args)` means a trailing
lone `::` cannot form a pair); each pair flushes the slice before it as one
instance's argument slice; after the scan the remaining slice is flushed only
when it is non-empty (the `j > i` check, wgo_cmd.go:161). -/
def splitWgoAux (acc : List Tok) : List Tok → List (List Tok)
  | [] => if acc = [] then [] else [acc]
  | [a] => [acc ++ [a]]
  | a :: b :: rest =>
    if a = str "::" ∧ b = str "wgo" then acc :: splitWgoAux [] rest
    else splitWgoAux (acc ++ [a]) (b :: rest)

/-- The instance-splitting scan of `WgoCommands` started with an empty
current slice. -/
def splitWgo (l : List Tok) : List (List Tok) :=
  splitWgoAux [] l

/-- Variant of `splitWgoAux` that flushes the final slice unconditionally,
even when it is empty.  This is the meaning of "the instances parsed before
the trailing pair": every `"::", "wgo"` boundary flushes the segment before
it.  Used to state what `WgoCommands` returns on an argument vector that
ends in `"::", "wgo"`. -/
def splitWgoFlushAux (acc : List Tok) : List Tok → List (List Tok)
  | [] => [acc]
  | [a] => [acc ++ [a]]
  | a :: b :: rest =>
    if a = str "::" ∧ b = str "wgo" then acc :: splitWgoFlushAux [] rest
    else splitWgoFlushAux (acc ++ [a]) (b :: rest)

/-- The unconditional-flush splitter started with an empty current slice. -/
def splitWgoFlush (l : List Tok) : List (List Tok) :=
  splitWgoFlushAux [] l

/-- Embeds `WgoCommands` at the level of argument slices: the program name
`args[0]` is skipped (the loop indices start at 1), and the rest is split at
`"::", "wgo"` pairs. -/
def wgoCommandsSplit (args : List Tok) : List (List Tok) :=
  splitWgo (args.drop 1)

/-! ## Pattern compiler: wgo_cmd.go `compileRegexp` -/

/-- ASCII letter test of the dot-literal sugar condition (wgo_cmd.go:602):
`('a' <= next && next <= 'z') || ('A' <= next && next <= 'Z')`. -/
def isAsciiLetter (c : Char) : Bool :=
  (decide ('a' ≤ c) && decide (c ≤ 'z')) || (decide ('A' ≤ c) && decide (c ≤ 'Z'))

/-- The `next` rune of the sugar loop: the first rune of the remaining input,
or, what `utf8.DecodeRuneInString` yields at the end of the string, a
replacement rune — which is not an ASCII letter, so the test is `false`. -/
def nextIsLetter (rest : List Char) : Bool :=
  match rest.head? with
  | some d => isAsciiLetter d
  | none => false

/-- Embeds the rewrite loop of `compileRegexp` (wgo_cmd.go:594-607): `acc` is
the builder `b`; `prev` is its last rune (`utf8.DecodeLastRuneInString` of
the empty builder yields a replacement rune, never a backslash, so the
`prev != '\\'` test is modelled by `acc.getLast? ≠ some '\\'`); a dot whose
previous rune is not a backslash and whose next rune is an ASCII letter is
written as `\.`, every other rune is copied. -/
def sugarGo (acc : List Char) : List Char → List Char
  | [] => acc
  | c :: rest =>
    if acc.getLast? ≠ some '\\' ∧ c = '.' ∧ nextIsLetter rest = true then
      sugarGo (acc ++ ['\\', '.']) rest
    else
      sugarGo (acc ++ [c]) rest

/-- Embeds `compileRegexp` (wgo_cmd.go:580-609) at the level of the pattern
string it hands to `regexp.Compile`: a pattern without dots is passed through
unchanged (wgo_cmd.go:581-584); otherwise a leading `./` of a pattern longer
than two characters is stripped (wgo_cmd.go:585-593), and the sugar loop
rewrites dots-before-letters (wgo_cmd.go:594-607). -/
def compileRegexpGo (pattern : List Char) : List Char :=
  if pattern.count '.' = 0 then pattern
  else
    let stripped :=
      if (str "./").isPrefixOf pattern ∧ pattern.length > 2 then pattern.drop 2
      else pattern
    sugarGo [] stripped

/-- Every dot of the pattern is followed by a non-letter (or is the final
character): the hypothesis of the second dot-literal sugar property. -/
def dotsBeforeNonLetter : List Char → Bool
  | [] => true
  | c :: rest =>
    (if c = '.' then !(nextIsLetter rest) else true) && dotsBeforeNonLetter rest

/-- An atom of the regex fragment needed by the sugar claims: a literal
character or the wildcard dot.  This is Go `regexp` syntax restricted to
patterns with no operators other than `.` and backslash escapes — exactly
the patterns the theorems below evaluate. -/
inductive RAtom where
  | lit (c : Char)
  | anyChar
deriving DecidableEq

/-- Parse an operator-free pattern into atoms: `\c` is the literal `c`, an
unescaped `.` is the wildcard, anything else is a literal (a dangling final
backslash, which Go rejects at compile time, parses to nothing). -/
def parseAtoms : List Char → List RAtom
  | [] => []
  | c :: rest =>
    if c = '\\' then
      match rest with
      | [] => []
      | d :: rest2 => RAtom.lit d :: parseAtoms rest2
    else if c = '.' then RAtom.anyChar :: parseAtoms rest
    else RAtom.lit c :: parseAtoms rest

/-- Anchored match: do the atoms match a prefix of the string? -/
def atomsMatchHere : List RAtom → List Char → Bool
  | [], _ => true
  | _ :: _, [] => false
  | a :: as, c :: cs =>
    (match a with
     | RAtom.lit d => decide (d = c)
     | RAtom.anyChar => true) && atomsMatchHere as cs

/-- Unanchored match, as Go's `Regexp.MatchString`: the atoms match at some
position of the string. -/
def regexSearch (atoms : List RAtom) : List Char → Bool
  | [] => atomsMatchHere atoms []
  | c :: rest => atomsMatchHere atoms (c :: rest) || regexSearch atoms rest

/-! ## Path matcher: wgo_cmd.go `WgoCmd.match` -/

/-- A compiled regular expression abstracted to its `MatchString` behaviour
on forward-slash paths. -/
abbrev PathRegexp := List Char → Bool

/-- The pattern fields of a `WgoCmd` relevant to matching (wgo_cmd.go:65-92),
each compiled regexp abstracted to its `MatchString` function, plus the
`isRun` flag (wgo_cmd.go:137). -/
structure MatcherSpec where
  fileRegexps : List PathRegexp
  excludeFileRegexps : List PathRegexp
  dirRegexps : List PathRegexp
  excludeDirRegexps : List PathRegexp
  isRun : Bool

/-- Embeds the root-stripping loop of `WgoCmd.match` (wgo_cmd.go:671-680) on
POSIX, where `filepath.ToSlash` is the identity and `os.PathSeparator` is
`/`: the first root (declaration order) such that `root ++ "/"` is a prefix
of the path is stripped; otherwise the path is used as-is. -/
def relFile (roots : List (List Char)) (path : List Char) : List Char :=
  match roots.find? (fun r => (r ++ ['/']).isPrefixOf path) with
  | some r => path.drop (r.length + 1)
  | none => path

/-- Models `filepath.Dir` (wgo_cmd.go:672, 677) for clean forward-slash
paths: everything before the last `/`, or `.` when the path has no slash.
Both the code-side and the spec-side matcher apply this same function, so the
equivalence theorem below is independent of the remaining details of
`filepath.Dir` (its `Clean` normalisation of non-clean paths). -/
def parentDir (p : List Char) : List Char :=
  if '/' ∈ p then ((p.reverse.dropWhile (fun c => c ≠ '/')).tail).reverse
  else ['.']

/-- Embeds `WgoCmd.match` (wgo_cmd.go:670-726) on POSIX (the `op` argument
of the source is only logged and is omitted): excluded dir patterns on the
parent dir, then required dir patterns on the parent dir, then excluded file
patterns, then included file patterns, then the run-mode default — `path`
ends in `.go` and not `_test.go`, tested on the UNSTRIPPED `path`
(wgo_cmd.go:713) — then the empty-include default. -/
def wgoMatch (m : MatcherSpec) (roots : List (List Char)) (path : List Char) : Bool :=
  let normalizedFile := relFile roots path
  let normalizedDir := parentDir normalizedFile
  if m.excludeDirRegexps.any (fun r => r normalizedDir) then false
  else if decide (0 < m.dirRegexps.length) &&
      !(m.dirRegexps.any (fun r => r normalizedDir)) then false
  else if m.excludeFileRegexps.any (fun r => r normalizedFile) then false
  else if m.fileRegexps.any (fun r => r normalizedFile) then true
  else if m.isRun then
    (str ".go").isSuffixOf path && !((str "_test.go").isSuffixOf path)
  else decide (m.fileRegexps.length = 0)

/-- The matcher as the specification words it (steps 3-8 of the matching
algorithm), evaluated over the root-relative path `F` and its parent
directory `D`; in particular the run-mode default tests `F`. -/
def wgoMatchSpec (m : MatcherSpec) (F D : List Char) : Bool :=
  if m.excludeDirRegexps.any (fun r => r D) then false
  else if !m.dirRegexps.isEmpty && !(m.dirRegexps.any (fun r => r D)) then false
  else if m.excludeFileRegexps.any (fun r => r F) then false
  else if m.fileRegexps.any (fun r => r F) then true
  else if m.isRun then
    (str ".go").isSuffixOf F && !((str "_test.go").isSuffixOf F)
  else m.fileRegexps.isEmpty

/-! ## POSIX quoter: util_unix.go `joinArgs` / `quote` -/

/-- The backquote character, `0x60`. -/
def backquoteChar : Char := Char.ofNat 96

/-- The opening curly bracket character, `0x7b`. -/
def lbraceChar : Char := Char.ofNat 123

/-- The closing curly bracket character, `0x7d`. -/
def rbraceChar : Char := Char.ofNat 125

/-- The POSIX backslash-escapable characters: the Go constant `specialChars`
(util_unix.go:20), i.e. backslash, single quote, double quote, backquote,
dollar, opening brace, opening bracket, pipe, ampersand, semicolon, less
than, greater than, both parentheses, star, question mark, bang. -/
def specialCharsU : List Char :=
  ['\\', '\'', '"', backquoteChar, '$', lbraceChar, '[', '|', '&', ';',
   '<', '>', '(', ')', '*', '?', '!']

/-- The characters that force single-quote mode: the Go constant
`extraSpecialChars` (util_unix.go:21): space, tab, newline. -/
def extraSpecialCharsU : List Char := [' ', '\t', '\n']

/-- The characters escaped only at the start of a token: the Go constant
`prefixChars` (util_unix.go:22): tilde. -/
def prefixCharsU : List Char := ['~']

/-- Embeds the backslash-escape scan of `quote` (util_unix.go:117-140): each
rune that is special (or tilde at the start) is written as `\c`, other runes
are copied (the source buffers runs of plain runes and flushes them before
each escape and at the end, which writes the same byte sequence), and
hitting an extra-special rune aborts the scan — the source then truncates
the buffer to `origLen` and jumps to quote mode — modelled by `none`. -/
def bsScan (atStart : Bool) : List Char → Option (List Char)
  | [] => some []
  | c :: rest =>
    if c ∈ specialCharsU ∨ (atStart = true ∧ c ∈ prefixCharsU) then
      (bsScan false rest).map (fun out => '\\' :: c :: out)
    else if c ∈ extraSpecialCharsU then none
    else (bsScan false rest).map (fun out => c :: out)

/-- Embeds the quote-mode loop of `quote` (util_unix.go:142-174) one rune at
a time.  The source splits the word at single quotes with
`strings.IndexRune` and writes each quote-free segment (opening a `'` when
not already inside quotes), closes the quotes before every embedded single
quote, emits `\'`, and finally closes the quotes when the trailing segment
is non-empty; processing the same runes one at a time with the `inQuote`
flag produces the identical byte sequence: a plain rune opens a quote when
none is open and is copied; an embedded `'` closes any open quote and is
written as `\'`; the end of the word closes any open quote. -/
def quoteModeGo : List Char → Bool → List Char
  | [], inQuote => if inQuote then ['\''] else []
  | c :: rest, inQuote =>
    if c = '\'' then
      (if inQuote then ['\''] else []) ++ '\\' :: '\'' :: quoteModeGo rest false
    else
      (if inQuote then [] else ['\'']) ++ c :: quoteModeGo rest true

/-- Embeds `quote` (util_unix.go:79-174): the empty word becomes `''`; a
word whose backslash scan completes is emitted escaped; a word containing
an extra-special rune is emitted in single-quote mode instead. -/
def quoteUnix (word : List Char) : List Char :=
  if word = [] then str "''"
  else
    match bsScan true word with
    | some out => out
    | none => quoteModeGo word false

/-- Embeds `joinArgs` (util_unix.go:47-77): quoted tokens joined by single
spaces. -/
def joinArgsUnix : List (List Char) → List Char
  | [] => []
  | a :: rest => quoteUnix a ++ (rest.map (fun w => ' ' :: quoteUnix w)).flatten

/-- Per-character escape of the backslash strategy as the specification
words it, for non-initial characters: characters of the special set get a
backslash. -/
def escUnixChar (c : Char) : List Char :=
  if c ∈ specialCharsU then ['\\', c] else [c]

/-- The backslash strategy as the specification words it: every character
of the special set is backslash-escaped, plus a leading tilde. -/
def bsFlatSpec : List Char → List Char
  | [] => []
  | c :: rest =>
    (if c ∈ specialCharsU ∨ c ∈ prefixCharsU then ['\\', c] else [c]) ++
      (rest.map escUnixChar).flatten

/-! ## Windows quoter: util_windows.go `joinArgs` -/

/-- The PowerShell special characters: the Go string `" '`+"`"+`$(){}<>|&;*"`
(util_windows.go:43): space, single quote, backquote, dollar, parentheses,
braces, less than, greater than, pipe, ampersand, semicolon, star. -/
def winSpecialChars : List Char :=
  [' ', '\'', backquoteChar, '$', '(', ')', lbraceChar, rbraceChar,
   '<', '>', '|', '&', ';', '*']

/-- Embeds the per-token rendering of the Windows `joinArgs`
(util_windows.go:39-47) applied to tokens after the first: an empty token
becomes `''`; a token without special characters is emitted literally; any
other token is single-quoted with embedded single quotes doubled
(`strings.ReplaceAll(arg, "'", "''")`). -/
def quoteWinTok (arg : List Char) : List Char :=
  if arg = [] then str "''"
  else if !(arg.any (fun c => c ∈ winSpecialChars)) then arg
  else '\'' :: (arg.map (fun c => if c = '\'' then [c, c] else [c])).flatten ++ ['\'']

/-- Embeds the Windows `joinArgs` (util_windows.go:28-50): the FIRST token
(`i == 0`) is written literally, with no quoting of any kind
(util_windows.go:34-37); every later token is preceded by a space and
rendered by `quoteWinTok`. -/
def joinArgsWindows : List (List Char) → List Char
  | [] => []
  | first :: rest => first ++ (rest.map (fun a => ' ' :: quoteWinTok a)).flatten

/-- The Windows quoter as the claim words it: EVERY token, including the
first, is rendered by the quoting rule.  Used to exhibit the divergence on
the first token. -/
def joinArgsWindowsClaim : List (List Char) → List Char
  | [] => []
  | first :: rest => quoteWinTok first ++ (rest.map (fun a => ' ' :: quoteWinTok a)).flatten

/-! ## Supervisor event loop: wgo_cmd.go `WgoCmd.Run` -/

/-- Result of the `os.Stat` call on an event path (wgo_cmd.go:553-560). -/
inductive StatResult where
  | statError
  | isDir
  | isFile
deriving DecidableEq

/-- A filesystem event as the event loop sees it: the `Create` and `Write`
bits of the fsnotify op mask (`event.Has`), the stat outcome for the event
path, and — when the path is a regular file — the value of
`wgoCmd.match(event.Op.String(), event.Name)`. -/
structure FsEventInfo where
  hasCreate : Bool
  hasWrite : Bool
  statResult : StatResult
  fileMatches : Bool
deriving DecidableEq

/-- One arrival of the four-way select of the event loop
(wgo_cmd.go:532-570): context cancellation, exit of the running child (with
its error status), a filesystem event, or expiry of the debounce timer. -/
inductive LoopEvent where
  | ctxDone
  | childExit (err : Option Nat)
  | fsEvent (e : FsEventInfo)
  | timerFire
deriving DecidableEq

/-- What the select case decides to do.  `waitMore` is the `break` out of
the select (and the `continue` cases): stay in the event loop with the same
chain position, no timer change, no restart — the wait-for-change state. -/
inductive SelectOutcome where
  | stopChildAndReturn
  | instanceReturn (err : Option Nat)
  | waitMore
  | nextCommand
  | armTimer
  | addWatches
  | restartChain
deriving DecidableEq

/-- Embeds the body of the select statement of `WgoCmd.Run`
(wgo_cmd.go:532-570) for chain position `i` of `n` commands
(`i == len(wgoCmd.ArgsList)-1` is the last), with `exitFlag` the `-exit`
option and `pollIsZero` whether `wgoCmd.PollDuration == 0`:
cancellation stops the child and returns; a child exit at the last position
returns its status under `-exit` and otherwise suspends, while mid-chain a
zero status proceeds to the next command and a non-zero status suspends;
a filesystem event without the Create or Write bit is skipped, as is one
whose stat fails; a directory Create (without polling) re-enrolls watches;
a matching file event resets the debounce timer (`timer.Reset`); timer
expiry stops the child and restarts the chain. -/
def selectStep (i n : Nat) (exitFlag : Bool) (pollIsZero : Bool) :
    LoopEvent → SelectOutcome
  | LoopEvent.ctxDone => SelectOutcome.stopChildAndReturn
  | LoopEvent.childExit err =>
    if i = n - 1 then
      (if exitFlag then SelectOutcome.instanceReturn err else SelectOutcome.waitMore)
    else if err.isSome then SelectOutcome.waitMore
    else SelectOutcome.nextCommand
  | LoopEvent.fsEvent e =>
    if !e.hasCreate && !e.hasWrite then SelectOutcome.waitMore
    else
      match e.statResult with
      | StatResult.statError => SelectOutcome.waitMore
      | StatResult.isDir =>
        if e.hasCreate && pollIsZero then SelectOutcome.addWatches
        else SelectOutcome.waitMore
      | StatResult.isFile =>
        if e.fileMatches then SelectOutcome.armTimer else SelectOutcome.waitMore
  | LoopEvent.timerFire => SelectOutcome.restartChain

/-- The child-exit decision as the specification words it, in terms of
"is this the last argv", `exit_when_done`, and the child's status. -/
def childExitSpec (isLast exitWhenDone : Bool) (err : Option Nat) : SelectOutcome :=
  if isLast then
    (if exitWhenDone then SelectOutcome.instanceReturn err else SelectOutcome.waitMore)
  else if err = none then SelectOutcome.nextCommand
  else SelectOutcome.waitMore

/-- Debounce-timer discipline of the event loop (wgo_cmd.go:417-424,
562-569): the timer is single-shot, `timer.Reset(debounce)` on every
matching event re-arms it to `debounce` in the future, and it fires only
when allowed to expire.  `fireTimes d events armed` lists the firing times,
given matching events at the strictly increasing listed times and the
currently armed deadline: a deadline at or before the next event time means
the timer fired (one restart) before that event re-armed it; the final
armed deadline fires once no further event arrives. -/
def fireTimes (d : Nat) : List Nat → Option Nat → List Nat
  | [], none => []
  | [], some deadline => [deadline]
  | t :: ts, none => fireTimes d ts (some (t + d))
  | t :: ts, some deadline =>
    if deadline ≤ t then deadline :: fireTimes d ts (some (t + d))
    else fireTimes d ts (some (t + d))

/-- A burst of event times: strictly increasing, each successive pair less
than `d` apart. -/
def isBurst (d : Nat) : List Nat → Bool
  | [] => true
  | [_] => true
  | t1 :: t2 :: ts =>
    decide (t1 < t2) && decide (t2 - t1 < d) && isBurst d (t2 :: ts)

/-! ## Theorems -/

/-- Helper: `chainFold` distributes over a fixed head argv as long as the
tail of the chain is non-empty (the head is never the last argv, so tokens
are never appended to it). -/
theorem chainFold_cons (a : Argv) :
    ∀ (l : List Tok) (chain : Chain), chain ≠ [] →
      chainFold (a :: chain) l = a :: chainFold chain l := by
  intro l
  induction l with
  | nil => intro chain h; rfl
  | cons arg rest ih =>
    intro chain h
    match chain with
    | c :: cs =>
      by_cases harg : arg = str "::"
      · rw [chainFold, if_pos harg, chainFold, if_pos harg]
        have : (a :: c :: cs) ++ [[]] = a :: ((c :: cs) ++ [[]]) := by simp
        rw [this, ih _ (by simp)]
      · rw [chainFold, if_neg harg, chainFold, if_neg harg]
        have : appendLast (a :: c :: cs) (colonUnescape arg) =
            a :: appendLast (c :: cs) (colonUnescape arg) := by
          simp [appendLast]
        rw [this, ih _ (by simp [appendLast])]

/-- Helper: with no `::` separator among the tokens, `chainFold` appends all
tokens (colon-unescaped) to the single argv. -/
theorem chainFold_no_sep :
    ∀ (l : List Tok) (acc : Argv), str "::" ∉ l →
      chainFold [acc] l = [acc ++ l.map colonUnescape] := by
  intro l
  induction l with
  | nil => intro acc _; simp [chainFold]
  | cons arg rest ih =>
    intro acc h
    have harg : arg ≠ str "::" := by
      intro hc; exact h (by simp [hc])
    have hrest : str "::" ∉ rest := by
      intro hc; exact h (by simp [hc])
    rw [chainFold, if_neg harg]
    have : appendLast [acc] (colonUnescape arg) = [acc ++ [colonUnescape arg]] := by
      simp [appendLast]
    rw [this, ih _ hrest]
    simp

/-- C1 counterexample: in run mode a `::` token after the package is NOT
rejected — it starts a third argv.  With package `pkg` and program arguments
`a :: b`, `WgoCommand` returns (without error) a chain of three argvs:
the synthesized build argv, `[TMP, a]`, and `[b]`.  The claim asserts the
chain is always exactly two argvs and that a further `::` is rejected. -/
theorem runMode_extra_colon_cex :
    wgoCommandArgsList true [] [] (str "TMP")
        [str "pkg", str "a", str "::", str "b"] =
      Except.ok [[str "go", str "build", str "-o", str "TMP", str "pkg"],
                 [str "TMP", str "a"], [str "b"]] ∧
    ([[str "go", str "build", str "-o", str "TMP", str "pkg"],
      [str "TMP", str "a"], [str "b"]] : Chain).length = 3 :=
  ⟨rfl, rfl⟩

/-- C1 (amended): for every run-mode parse with package `pkg` and program
arguments `progArgs`, the chain is the synthesized build argv
`[go, build, -o, tmp, strFlagValues..., boolFlagToks..., pkg]` followed by
the fold of `progArgs` into the seed chain `[[tmp]]`; when `progArgs`
contains no `::` token the chain is exactly the two argvs of the claim, with
all program arguments (colon-unescaped) going to argv 1. -/
theorem runMode_chain_amended (sfv bfv : List Tok) (tmp pkg : Tok)
    (progArgs : List Tok) :
    wgoCommandArgsList true sfv bfv tmp (pkg :: progArgs) =
      Except.ok ((str "go" :: str "build" :: str "-o" :: tmp ::
        (sfv ++ bfv ++ [pkg])) :: chainFold [[tmp]] progArgs) ∧
    (str "::" ∉ progArgs →
      chainFold [[tmp]] progArgs = [tmp :: progArgs.map colonUnescape]) := by
  constructor
  · show Except.ok (chainFold _ progArgs) = _
    rw [chainFold_cons _ progArgs [[tmp]] (by simp)]
  · intro h
    rw [chainFold_no_sep progArgs [tmp] h]
    simp

/-- Witness for `runMode_chain_amended` at a concrete input:
`wgo run -tags fts5 -race pkg x y` produces exactly the two argvs
`[go build -o TMP -tags fts5 -race pkg]` and `[TMP x y]`. -/
theorem runMode_chain_amended_witness :
    str "::" ∉ [str "x", str "y"] ∧
    wgoCommandArgsList true [str "-tags", str "fts5"] [str "-race"]
        (str "TMP") [str "pkg", str "x", str "y"] =
      Except.ok [[str "go", str "build", str "-o", str "TMP",
                  str "-tags", str "fts5", str "-race", str "pkg"],
                 [str "TMP", str "x", str "y"]] := by
  have h := runMode_chain_amended [str "-tags", str "fts5"] [str "-race"]
    (str "TMP") (str "pkg") [str "x", str "y"]
  refine ⟨by decide, ?_⟩
  rw [h.1, h.2 (by decide)]
  rfl

/-- C2: `WgoCommand` performs no emptiness check on the parsed chain.  With
no positional tokens at all it returns, without error, the chain `[[]]`
whose first (and only) argv is empty; with a leading `::` it returns
`[[], [echo, hi]]`, again without error.  The claim (and spec) say a parse
error must be reported; instead `WgoCmd.Run` later evaluates `args[0]` on
the empty argv (wgo_cmd.go:464) and panics. -/
theorem wgoCommand_empty_argv_ok :
    wgoCommandArgsList false [] [] [] [] = Except.ok [[]] ∧
    wgoCommandArgsList false [] [] [] [str "::", str "echo", str "hi"] =
      Except.ok [[], [str "echo", str "hi"]] :=
  ⟨rfl, rfl⟩

/-- Helper for C10: appending the trailing pair `"::", "wgo"` makes the
splitter flush every segment, including a final empty one. -/
theorem splitWgo_append_pair :
    ∀ (n : ℕ) (l : List Tok), l.length ≤ n → ∀ (acc : List Tok),
      splitWgoAux acc (l ++ [str "::", str "wgo"]) = splitWgoFlushAux acc l := by
  intro n
  induction n with
  | zero =>
    intro l hl acc
    have hnil : l = [] := by
      cases l with
      | nil => rfl
      | cons a t => simp at hl
    subst hnil
    show splitWgoAux acc [str "::", str "wgo"] = [acc]
    rw [splitWgoAux, if_pos ⟨rfl, rfl⟩, splitWgoAux, if_pos rfl]
  | succ n ih =>
    intro l hl acc
    cases l with
    | nil =>
      show splitWgoAux acc [str "::", str "wgo"] = [acc]
      rw [splitWgoAux, if_pos ⟨rfl, rfl⟩, splitWgoAux, if_pos rfl]
    | cons a t =>
      cases t with
      | nil =>
        show splitWgoAux acc (a :: str "::" :: [str "wgo"]) = [acc ++ [a]]
        rw [splitWgoAux]
        have hne : ¬(a = str "::" ∧ str "::" = str "wgo") := by
          intro hc; exact absurd hc.2 (by decide)
        rw [if_neg hne]
        show splitWgoAux (acc ++ [a]) [str "::", str "wgo"] = _
        rw [splitWgoAux, if_pos ⟨rfl, rfl⟩, splitWgoAux, if_pos rfl]
      | cons b r =>
        show splitWgoAux acc (a :: b :: (r ++ [str "::", str "wgo"])) = _
        rw [splitWgoAux, splitWgoFlushAux]
        by_cases hc : a = str "::" ∧ b = str "wgo"
        · rw [if_pos hc, if_pos hc]
          have hr : r.length ≤ n := by simp at hl; omega
          rw [ih r hr []]
        · rw [if_neg hc, if_neg hc]
          have hbr : (b :: r).length ≤ n := by simp at hl ⊢; omega
          exact ih (b :: r) hbr (acc ++ [a])

/-- C10: a trailing `"::", "wgo"` pair is silently discarded by
`WgoCommands`: it flushes the tokens before it as the final instance slice
and contributes no further instance and no error.  Concretely
`wgo echo hi :: wgo` yields the single slice `[echo, hi]`, whose chain is
`[[echo, hi]]`; in general, for any token list `l`, splitting
`l ++ [::, wgo]` equals flushing every `"::", "wgo"`-delimited segment of
`l` (including a final empty segment, which still becomes an instance with
an empty chain argv).  A trailing `::` NOT followed by `wgo` instead stays
inside the final slice and acts as an argv separator in the chain:
`wgo echo hi ::` yields one instance whose chain is `[[echo, hi], []]`. -/
theorem trailing_wgo_pair_discarded :
    wgoCommandsSplit [str "wgo", str "echo", str "hi", str "::", str "wgo"] =
      [[str "echo", str "hi"]] ∧
    chainFold [[]] [str "echo", str "hi"] = [[str "echo", str "hi"]] ∧
    (∀ l : List Tok,
      splitWgo (l ++ [str "::", str "wgo"]) = splitWgoFlush l) ∧
    wgoCommandsSplit [str "wgo", str "echo", str "hi", str "::"] =
      [[str "echo", str "hi", str "::"]] ∧
    chainFold [[]] [str "echo", str "hi", str "::"] =
      [[str "echo", str "hi"], []] := by
  exact ⟨by decide, by decide,
    fun l => splitWgo_append_pair l.length l le_rfl [], by decide, by decide⟩

/-- Helper: when every dot is followed by a non-letter, the sugar loop
copies its input verbatim. -/
theorem sugarGo_id :
    ∀ (l acc : List Char), dotsBeforeNonLetter l = true →
      sugarGo acc l = acc ++ l := by
  intro l
  induction l with
  | nil => intro acc _; simp [sugarGo]
  | cons c rest ih =>
    intro acc h
    rw [dotsBeforeNonLetter] at h
    simp only [Bool.and_eq_true] at h
    rw [sugarGo]
    have hcond : ¬(acc.getLast? ≠ some '\\' ∧ c = '.' ∧ nextIsLetter rest = true) := by
      rintro ⟨-, hc, hnext⟩
      rw [if_pos hc] at h
      rw [hnext] at h
      simp at h
    rw [if_neg hcond, ih _ h.2]
    simp

/-- Helper: a run of non-dot characters passes through the sugar loop
unchanged, moving from the input to the builder. -/
theorem sugarGo_no_dots :
    ∀ (l rest acc : List Char), (∀ c ∈ l, c ≠ '.') →
      sugarGo acc (l ++ rest) = sugarGo (acc ++ l) rest := by
  intro l
  induction l with
  | nil => intro rest acc _; simp
  | cons c t ih =>
    intro rest acc h
    have hc : c ≠ '.' := h c (by simp)
    show sugarGo acc (c :: (t ++ rest)) = _
    rw [sugarGo]
    have hcond : ¬(acc.getLast? ≠ some '\\' ∧ c = '.' ∧ nextIsLetter (t ++ rest) = true) := by
      rintro ⟨-, hcc, -⟩; exact hc hcc
    rw [if_neg hcond, ih rest (acc ++ [c]) (fun d hd => h d (by simp [hd]))]
    simp

/-- Helper: an ASCII letter is neither a dot, nor a backslash, nor a slash,
nor an at-sign. -/
theorem isAsciiLetter_ne (c : Char) (h : isAsciiLetter c = true) :
    c ≠ '.' ∧ c ≠ '\\' ∧ c ≠ '/' ∧ c ≠ '@' := by
  refine ⟨?_, ?_, ?_, ?_⟩ <;> rintro rfl <;> exact absurd h (by decide)

/-- Helper: one-step unfolding of `parseAtoms` on a cons cell. -/
theorem parseAtoms_cons (c : Char) (rest : List Char) :
    parseAtoms (c :: rest) =
      if c = '\\' then
        (match rest with
         | [] => []
         | d :: rest2 => RAtom.lit d :: parseAtoms rest2)
      else if c = '.' then RAtom.anyChar :: parseAtoms rest
      else RAtom.lit c :: parseAtoms rest := by
  rw [parseAtoms.eq_def]

/-- Helper: parsing a run of plain literal characters yields literal atoms. -/
theorem parseAtoms_no_esc :
    ∀ (l rest : List Char), (∀ c ∈ l, c ≠ '\\' ∧ c ≠ '.') →
      parseAtoms (l ++ rest) = l.map RAtom.lit ++ parseAtoms rest := by
  intro l
  induction l with
  | nil => intro rest _; simp
  | cons c t ih =>
    intro rest h
    have hc := h c (by simp)
    show parseAtoms (c :: (t ++ rest)) = _
    rw [parseAtoms_cons, if_neg hc.1, if_neg hc.2,
      ih rest (fun d hd => h d (by simp [hd]))]
    simp

/-- Helper: literal atoms match a prefix exactly when the character list is
a prefix. -/
theorem atomsMatchHere_lit_iff :
    ∀ (w s : List Char), atomsMatchHere (w.map RAtom.lit) s = true ↔ w <+: s := by
  intro w
  induction w with
  | nil => intro s; simp [atomsMatchHere]
  | cons c t ih =>
    intro s
    cases s with
    | nil => simp [atomsMatchHere]
    | cons d s' =>
      show (decide (c = d) && atomsMatchHere (t.map RAtom.lit) s') = true ↔ _
      rw [Bool.and_eq_true, decide_eq_true_iff, ih s', List.cons_prefix_cons]

/-- Helper: unanchored literal search fails when no suffix of the string has
the word as a prefix. -/
theorem regexSearch_lit_false (w : List Char) :
    ∀ (s : List Char), (∀ t, t <:+ s → ¬ w <+: t) →
      regexSearch (w.map RAtom.lit) s = false := by
  intro s
  induction s with
  | nil =>
    intro h
    rw [regexSearch, Bool.eq_false_iff]
    intro hc
    exact h [] (List.nil_suffix) ((atomsMatchHere_lit_iff w []).mp hc)
  | cons c rest ih =>
    intro h
    rw [regexSearch, Bool.or_eq_false_iff]
    constructor
    · rw [Bool.eq_false_iff]
      intro hc
      exact h (c :: rest) List.suffix_rfl ((atomsMatchHere_lit_iff w _).mp hc)
    · exact ih (fun t ht => h t (ht.trans (List.suffix_cons c rest)))

/-- C5 counterexample: the claim's second clause contradicts its own
strip rule.  In the pattern `./a` every dot is followed by a non-letter
(`/`), yet the compiled pattern is `a` (the leading `./` is stripped), which
matches the string `a` while the raw pattern `./a` does not.  So the
compiled regex does not match the same strings as the raw regex. -/
theorem compileRegexp_dot_slash_cex :
    dotsBeforeNonLetter (str "./a") = true ∧
    compileRegexpGo (str "./a") = str "a" ∧
    regexSearch (parseAtoms (compileRegexpGo (str "./a"))) (str "a") = true ∧
    regexSearch (parseAtoms (str "./a")) (str "a") = false := by
  decide

/-- C5 (amended): (1) a pattern without dots compiles to itself (the raw
regex); (2) a pattern in which every dot is followed by a non-letter ALSO
compiles to itself — hence matches the same strings — provided the leading
`./`-strip rule does not apply to it; (3) the strip rule: a pattern
`./rest` with non-empty `rest` is compiled from `rest` alone; (4) for a
pattern `X.Yrest` made of ASCII letters around the dot, the compiled regex
rejects `X@Yrest`. -/
theorem compileRegexp_sugar_amended :
    (∀ p : List Char, '.' ∉ p → compileRegexpGo p = p) ∧
    (∀ p : List Char, dotsBeforeNonLetter p = true →
      ¬((str "./").isPrefixOf p ∧ p.length > 2) → compileRegexpGo p = p) ∧
    (∀ rest : List Char, rest ≠ [] →
      compileRegexpGo ('.' :: '/' :: rest) = sugarGo [] rest) ∧
    (∀ X Yr : List Char,
      (∀ c ∈ X, isAsciiLetter c = true) → (∀ c ∈ Yr, isAsciiLetter c = true) →
      Yr ≠ [] →
      regexSearch (parseAtoms (compileRegexpGo (X ++ '.' :: Yr)))
        (X ++ '@' :: Yr) = false) := by
  refine ⟨?_, ?_, ?_, ?_⟩
  · intro p hp
    rw [compileRegexpGo, if_pos (List.count_eq_zero.mpr hp)]
  · intro p hdots hstrip
    rw [compileRegexpGo]
    by_cases hcount : p.count '.' = 0
    · rw [if_pos hcount]
    · rw [if_neg hcount]
      simp only [if_neg hstrip]
      exact sugarGo_id p [] hdots
  · intro rest hrest
    rw [compileRegexpGo]
    have hcount : ('.' :: '/' :: rest).count '.' ≠ 0 := by
      simp [List.count_cons]
    rw [if_neg hcount]
    have hstrip : (str "./").isPrefixOf ('.' :: '/' :: rest) ∧
        ('.' :: '/' :: rest).length > 2 := by
      constructor
      · show List.isPrefixOf ['.', '/'] _ = true
        simp [List.isPrefixOf]
      · cases rest with
        | nil => exact absurd rfl hrest
        | cons a t => simp
    simp only [if_pos hstrip]
    rfl
  · intro X Yr hX hYr hYrne
    have hXne : ∀ c ∈ X, c ≠ '\\' ∧ c ≠ '.' := by
      intro c hc
      have := isAsciiLetter_ne c (hX c hc)
      exact ⟨this.2.1, this.1⟩
    have hYrne' : ∀ c ∈ Yr, c ≠ '\\' ∧ c ≠ '.' := by
      intro c hc
      have := isAsciiLetter_ne c (hYr c hc)
      exact ⟨this.2.1, this.1⟩
    -- Step 1: the compiled pattern is X ++ \. ++ Yr.
    have hcompiled : compileRegexpGo (X ++ '.' :: Yr) = X ++ '\\' :: '.' :: Yr := by
      rw [compileRegexpGo]
      have hcount : (X ++ '.' :: Yr).count '.' ≠ 0 := by
        simp [List.count_append, List.count_cons]
      rw [if_neg hcount]
      have hstrip : ¬((str "./").isPrefixOf (X ++ '.' :: Yr) ∧
          (X ++ '.' :: Yr).length > 2) := by
        rintro ⟨hpre, -⟩
        rw [show (str "./") = ['.', '/'] from rfl] at hpre
        obtain ⟨t, ht⟩ := List.isPrefixOf_iff_prefix.mp hpre
        cases X with
        | nil =>
          simp only [List.cons_append, List.nil_append] at ht
          injection ht with h1 h2
          cases Yr with
          | nil => exact hYrne rfl
          | cons y ys =>
            injection h2 with hy _
            exact (isAsciiLetter_ne y (hYr y (by simp))).2.2.1 hy.symm
        | cons x xs =>
          simp only [List.cons_append, List.nil_append] at ht
          injection ht with h1 h2
          exact (isAsciiLetter_ne x (hX x (by simp))).1 h1.symm
      simp only [if_neg hstrip]
      rw [sugarGo_no_dots X ('.' :: Yr) [] (fun c hc => (hXne c hc).2)]
      rw [List.nil_append, sugarGo]
      have hcond : X.getLast? ≠ some '\\' ∧ '.' = '.' ∧
          nextIsLetter Yr = true := by
        refine ⟨?_, rfl, ?_⟩
        · intro hlast
          have hmem : '\\' ∈ X := List.mem_of_mem_getLast? hlast
          exact (hXne '\\' hmem).1 rfl
        · cases Yr with
          | nil => exact absurd rfl hYrne
          | cons y ys =>
            show isAsciiLetter y = true
            exact hYr y (by simp)
      rw [if_pos hcond]
      have hfin := sugarGo_no_dots Yr [] (X ++ ['\\', '.'])
        (fun c hc => (hYrne' c hc).2)
      rw [List.append_nil] at hfin
      rw [hfin, sugarGo]
      simp
    rw [hcompiled]
    -- Step 2: the compiled pattern parses to literal atoms of X ++ . ++ Yr.
    have hatoms : parseAtoms (X ++ '\\' :: '.' :: Yr) =
        (X ++ '.' :: Yr).map RAtom.lit := by
      rw [parseAtoms_no_esc X _ hXne]
      have h1 : parseAtoms ('\\' :: '.' :: Yr) = RAtom.lit '.' :: parseAtoms Yr := rfl
      have h2 : parseAtoms Yr = Yr.map RAtom.lit := by
        have h3 := parseAtoms_no_esc Yr [] hYrne'
        rw [List.append_nil, show parseAtoms [] = [] from rfl, List.append_nil] at h3
        exact h3
      rw [h1, h2]
      simp
    rw [hatoms]
    -- Step 3: the literal word X.Yr occurs nowhere in X@Yr.
    apply regexSearch_lit_false
    intro t ht hpre
    have hlen1 : (X ++ '.' :: Yr).length ≤ t.length := hpre.length_le
    have hlen2 : t.length ≤ (X ++ '@' :: Yr).length := ht.length_le
    have hlensame : (X ++ '.' :: Yr).length = (X ++ '@' :: Yr).length := by simp
    have hteq : t = X ++ '@' :: Yr := ht.eq_of_length (by omega)
    subst hteq
    have hweq : X ++ '.' :: Yr = X ++ '@' :: Yr := hpre.eq_of_length (by omega)
    have := List.append_cancel_left hweq
    simp at this

/-- Witness for `compileRegexp_sugar_amended` at concrete inputs: `abc`
compiles to itself; `x.1` (dot before a non-letter, no `./` head) compiles
to itself; `./a` compiles from `a`; and the compiled form of `main.go`
rejects the string `main@go`. -/
theorem compileRegexp_sugar_amended_witness :
    compileRegexpGo (str "abc") = str "abc" ∧
    compileRegexpGo (str "x.1") = str "x.1" ∧
    compileRegexpGo (str "./a") = sugarGo [] (str "a") ∧
    regexSearch (parseAtoms (compileRegexpGo (str "main" ++ '.' :: str "go")))
      (str "main" ++ '@' :: str "go") = false := by
  refine ⟨?_, ?_, ?_, ?_⟩
  · exact compileRegexp_sugar_amended.1 (str "abc") (by decide)
  · exact compileRegexp_sugar_amended.2.1 (str "x.1") (by decide) (by decide)
  · exact compileRegexp_sugar_amended.2.2.1 (str "a") (by decide)
  · exact compileRegexp_sugar_amended.2.2.2 (str "main") (str "go")
      (by decide) (by decide) (by decide)

/-- Helper: a suffix containing no separator passes unchanged through a
separator boundary: `s` is a suffix of `r ++ '/' :: t` iff it is a suffix of
`t`, provided `/` does not occur in `s`. -/
theorem suffix_through_sep (r t s : List Char) (hs : '/' ∉ s) :
    s <:+ (r ++ '/' :: t) ↔ s <:+ t := by
  have htail : t <:+ r ++ '/' :: t :=
    (List.suffix_cons '/' t).trans (List.suffix_append r ('/' :: t))
  constructor
  · intro h
    by_cases hlen : s.length ≤ t.length
    · exact List.suffix_of_suffix_length_le h htail hlen
    · exfalso
      obtain ⟨u, hu⟩ := h
      have hlens := congrArg List.length hu
      simp [List.length_append] at hlens
      have hul : u.length ≤ r.length := by omega
      have hdrop : s = r.drop u.length ++ '/' :: t := by
        have h1 : (u ++ s).drop u.length = s := List.drop_left u s
        rw [hu] at h1
        rw [← h1, List.drop_append_of_le_length hul]
      have : '/' ∈ s := by
        rw [hdrop]
        simp
      exact hs this
  · intro h
    exact h.trans htail

/-- Helper: testing a separator-free suffix on the root-relative form of a
path is the same as testing it on the path itself. -/
theorem isSuffixOf_relFile (roots : List (List Char)) (path s : List Char)
    (hs : '/' ∉ s) :
    s.isSuffixOf (relFile roots path) = s.isSuffixOf path := by
  rw [relFile]
  cases hf : roots.find? (fun r => (r ++ ['/']).isPrefixOf path) with
  | none => rfl
  | some r =>
    have hp : ((r ++ ['/']).isPrefixOf path) = true := by
      have := List.find?_some hf
      simpa using this
    obtain ⟨t, ht⟩ := List.isPrefixOf_iff_prefix.mp hp
    have hpath : path = r ++ '/' :: t := by
      rw [← ht]; simp
    have hdrop : path.drop (r.length + 1) = t := by
      rw [hpath, show r ++ '/' :: t = (r ++ ['/']) ++ t from by simp]
      have : (r ++ ['/']).length = r.length + 1 := by simp
      rw [← this, List.drop_left]
    show s.isSuffixOf (path.drop (r.length + 1)) = s.isSuffixOf path
    rw [hdrop]
    have hiff := suffix_through_sep r t s hs
    rw [eq_comm, Bool.eq_iff_iff]
    rw [List.isSuffixOf_iff_suffix, List.isSuffixOf_iff_suffix, hpath]
    exact hiff

/-- Helper: deciding non-emptiness via the length is the same as the
negated emptiness test. -/
theorem decide_length_pos {α : Type} (l : List α) :
    decide (0 < l.length) = !l.isEmpty := by
  cases l <;> simp

/-- Helper: deciding emptiness via the length is the same as the emptiness
test. -/
theorem decide_length_zero {α : Type} (l : List α) :
    decide (l.length = 0) = l.isEmpty := by
  cases l <;> simp

/-- C3: the matcher evaluates in exactly the specified precedence order over
the forward-slash root-relative path `F` and its parent directory `D`:
dir-excludes on `D`, then non-empty dir-includes on `D`, then file-excludes
on `F`, then file-includes on `F`, then the run-mode `.go`/`_test.go`
default on `F`, then include-iff-no-file-includes.  (The code tests the
run-mode suffixes on the unstripped absolute path, which is equivalent
because `.go` and `_test.go` contain no separator.)  In particular a
dir-exclude overrides a file-include: with `-file main.go -xdir testdata`
the path `testdata/args/main.go` does not match even though the compiled
file pattern `main\.go` matches the path. -/
theorem matcher_precedence_order :
    (∀ (m : MatcherSpec) (roots : List (List Char)) (path : List Char),
      wgoMatch m roots path =
        wgoMatchSpec m (relFile roots path) (parentDir (relFile roots path))) ∧
    wgoMatch
      { fileRegexps := [fun p => regexSearch (parseAtoms (compileRegexpGo (str "main.go"))) p],
        excludeFileRegexps := [],
        dirRegexps := [],
        excludeDirRegexps := [fun p => regexSearch (parseAtoms (compileRegexpGo (str "testdata"))) p],
        isRun := false }
      [] (str "testdata/args/main.go") = false ∧
    regexSearch (parseAtoms (compileRegexpGo (str "main.go")))
      (str "testdata/args/main.go") = true := by
  refine ⟨?_, by decide, by decide⟩
  intro m roots path
  simp only [wgoMatch, wgoMatchSpec]
  rw [isSuffixOf_relFile roots path (str ".go") (by decide),
    isSuffixOf_relFile roots path (str "_test.go") (by decide),
    decide_length_pos, decide_length_zero]

/-- Helper: the backslash scan aborts exactly when the word contains an
extra-special character (space, tab or newline). -/
theorem bsScan_none_iff :
    ∀ (word : List Char) (atStart : Bool),
      bsScan atStart word = none ↔ word.any (fun c => c ∈ extraSpecialCharsU) = true := by
  intro word
  induction word with
  | nil => intro atStart; simp [bsScan]
  | cons c rest ih =>
    intro atStart
    rw [bsScan]
    by_cases h1 : c ∈ specialCharsU ∨ (atStart = true ∧ c ∈ prefixCharsU)
    · have hne : c ∉ extraSpecialCharsU := by
        intro hextra
        simp only [extraSpecialCharsU, List.mem_cons, List.not_mem_nil, or_false] at hextra
        rcases hextra with h | h | h <;> subst h <;>
          rcases h1 with h | ⟨-, h⟩ <;> exact absurd h (by decide)
      rw [if_pos h1]
      simp [ih false, hne]
    · rw [if_neg h1]
      by_cases h2 : c ∈ extraSpecialCharsU
      · rw [if_pos h2]
        simp [h2]
      · rw [if_neg h2]
        simp [ih false, h2]

/-- Helper: away from the start of the token, the completed backslash scan
escapes exactly the special characters. -/
theorem bsScan_false_eq :
    ∀ (word : List Char), (∀ c ∈ word, c ∉ extraSpecialCharsU) →
      bsScan false word = some ((word.map escUnixChar).flatten) := by
  intro word
  induction word with
  | nil => intro _; simp [bsScan]
  | cons c rest ih =>
    intro h
    rw [bsScan]
    have hrest := ih (fun d hd => h d (by simp [hd]))
    by_cases h1 : c ∈ specialCharsU ∨ (false = true ∧ c ∈ prefixCharsU)
    · rw [if_pos h1, hrest]
      rcases h1 with h1 | ⟨hc, -⟩
      · simp [escUnixChar, h1]
      · cases hc
    · rw [if_neg h1, if_neg (h c (by simp)), hrest]
      have hc : c ∉ specialCharsU := fun hc => h1 (Or.inl hc)
      simp [escUnixChar, hc]

/-- Helper: the completed backslash scan from the start of the token is the
specification's flat escape (specials everywhere, tilde at the start). -/
theorem bsScan_true_eq :
    ∀ (word : List Char), (∀ c ∈ word, c ∉ extraSpecialCharsU) →
      bsScan true word = some (bsFlatSpec word) := by
  intro word
  cases word with
  | nil => intro _; simp [bsScan, bsFlatSpec]
  | cons c rest =>
    intro h
    rw [bsScan, bsFlatSpec]
    have hrest := bsScan_false_eq rest (fun d hd => h d (by simp [hd]))
    by_cases h1 : c ∈ specialCharsU ∨ (true = true ∧ c ∈ prefixCharsU)
    · have h1' : c ∈ specialCharsU ∨ c ∈ prefixCharsU := by tauto
      rw [if_pos h1, hrest, if_pos h1']
      simp
    · have h1' : ¬(c ∈ specialCharsU ∨ c ∈ prefixCharsU) := by tauto
      rw [if_neg h1, if_neg (h c (by simp)), hrest, if_neg h1']
      simp

/-- C7: the POSIX quoter emits tokens joined by single spaces; an empty
token becomes `''`; a token containing space, tab or newline is emitted in
single-quote mode (embedded single quotes rendered as `'\''`, leading and
trailing embedded quotes collapsing their empty segments); any other token
is emitted with every special character — and a leading tilde —
backslash-escaped.  Each argv of the §8 POSIX scenario table produces
bit-exactly the listed output. -/
theorem joinArgs_posix_contract :
    (∀ word : List Char, quoteUnix word =
      (if word = [] then str "''"
       else if word.any (fun c => c ∈ extraSpecialCharsU) then quoteModeGo word false
       else bsFlatSpec word)) ∧
    joinArgsUnix [str "echo", str "test"] = str "echo test" ∧
    joinArgsUnix [str "echo", str "hello goodbye"] = str "echo 'hello goodbye'" ∧
    joinArgsUnix [str "echo", str "don't you know the dewey decimal system?"] =
      str "echo 'don'\\''t you know the dewey decimal system?'" ∧
    joinArgsUnix [str "echo", str "~user", str "u~ser", str " ~user", str "!~user"] =
      str "echo \\~user u~ser ' ~user' \\!~user" ∧
    joinArgsUnix [str "echo", str "foo*", str "M\x7bovies,usic\x7d", str "ab[cd]", str "%3"] =
      str "echo foo\\* M\\\x7bovies,usic\x7d ab\\[cd] %3" ∧
    joinArgsUnix [str "echo", str "one", str "", str "three"] = str "echo one '' three" ∧
    joinArgsUnix [str "echo", str "' "] = str "echo \\'' '" := by
  refine ⟨?_, by decide, by decide, by decide, by decide, by decide, by decide, by decide⟩
  intro word
  by_cases hw : word = []
  · simp [quoteUnix, hw]
  · rw [quoteUnix, if_neg hw, if_neg hw]
    by_cases hextra : word.any (fun c => c ∈ extraSpecialCharsU) = true
    · rw [if_pos hextra, (bsScan_none_iff word true).mpr hextra]
    · rw [if_neg hextra]
      have hall : ∀ c ∈ word, c ∉ extraSpecialCharsU := by
        intro c hc hmem
        exact hextra (List.any_eq_true.mpr ⟨c, hc, by simpa using hmem⟩)
      rw [bsScan_true_eq word hall]

/-- C8 counterexample: the Windows quoter never quotes the FIRST token of
the argv.  The single-token argv `[a b]` — whose token contains a space —
is emitted literally as `a b`, while the claim's per-token rule would
produce `'a b'`. -/
theorem joinArgs_windows_first_token_cex :
    joinArgsWindows [str "a b"] = str "a b" ∧
    joinArgsWindowsClaim [str "a b"] = str "'a b'" ∧
    joinArgsWindows [str "a b"] ≠ joinArgsWindowsClaim [str "a b"] := by
  decide

/-- C8 (amended): the Windows quoter emits the first token literally
(unquoted, whatever it contains); every LATER token is preceded by a single
space and follows the claim's rule — a token containing any of the special
set (space, quote, backquote, dollar, parentheses, braces, angle brackets,
pipe, ampersand, semicolon, star) is single-quoted with embedded single
quotes doubled, an empty token becomes `''`, and any other token is emitted
literally. -/
theorem joinArgs_windows_amended :
    (∀ (first : List Char) (rest : List (List Char)),
      joinArgsWindows (first :: rest) =
        first ++ (rest.map (fun a => ' ' :: quoteWinTok a)).flatten) ∧
    (∀ arg : List Char, quoteWinTok arg =
      (if arg.any (fun c => c ∈ winSpecialChars) then
        '\'' :: (arg.map (fun c => if c = '\'' then [c, c] else [c])).flatten ++ ['\'']
       else if arg = [] then str "''"
       else arg)) := by
  constructor
  · intro first rest
    rfl
  · intro arg
    by_cases hargnil : arg = []
    · subst hargnil
      simp [quoteWinTok]
    · by_cases hany : arg.any (fun c => c ∈ winSpecialChars) = true
      · simp [quoteWinTok, hargnil, hany]
      · have hany' : arg.any (fun c => c ∈ winSpecialChars) = false :=
          Bool.eq_false_iff.mpr hany
        simp [quoteWinTok, hargnil, hany']

/-- C6: the child-exit case of the select decides exactly as specified: at
the last chain position the instance returns the child's status when
`exit_when_done` is set and otherwise suspends waiting for a change;
mid-chain, a zero exit proceeds to the next argv while a non-zero exit
abandons the remaining chain and suspends — the chain is never continued
past a failed mid-chain command (second conjunct). -/
theorem child_exit_decision :
    (∀ (i n : Nat) (exitFlag pollIsZero : Bool) (err : Option Nat), i < n →
      selectStep i n exitFlag pollIsZero (LoopEvent.childExit err) =
        childExitSpec (decide (i = n - 1)) exitFlag err) ∧
    (∀ (i n : Nat) (exitFlag pollIsZero : Bool) (e : Nat), i ≠ n - 1 →
      selectStep i n exitFlag pollIsZero (LoopEvent.childExit (some e)) =
        SelectOutcome.waitMore) := by
  constructor
  · intro i n exitFlag pollIsZero err _
    by_cases hlast : i = n - 1
    · simp [selectStep, childExitSpec, hlast]
    · cases err with
      | none => simp [selectStep, childExitSpec, hlast]
      | some e => simp [selectStep, childExitSpec, hlast]
  · intro i n exitFlag pollIsZero e hmid
    simp [selectStep, hmid]

/-- Witness for `child_exit_decision` at concrete inputs: mid-chain
position 0 of a 2-command chain with a failing child (status 1) suspends in
wait-for-change; the same position with a clean exit proceeds to the next
command; the last position with `-exit` returns the child's status. -/
theorem child_exit_decision_witness :
    (0 : Nat) < 2 ∧ (0 : Nat) ≠ 2 - 1 ∧
    selectStep 0 2 false true (LoopEvent.childExit (some 1)) =
      SelectOutcome.waitMore ∧
    selectStep 0 2 false true (LoopEvent.childExit none) =
      SelectOutcome.nextCommand ∧
    selectStep 1 2 true true (LoopEvent.childExit (some 1)) =
      SelectOutcome.instanceReturn (some 1) := by
  refine ⟨by decide, by decide, ?_, ?_, ?_⟩
  · exact child_exit_decision.2 0 2 false true 1 (by decide)
  · rw [child_exit_decision.1 0 2 false true none (by decide)]
    decide
  · rw [child_exit_decision.1 1 2 true true (some 1) (by decide)]
    decide

/-- C9: a filesystem event whose op has neither the Create nor the Write
bit (remove, rename, chmod) makes the select stay in the wait state: it
never arms the debounce timer, never restarts, and is never fatal; likewise
an event whose path fails to stat is discarded with no state change. -/
theorem event_filter_no_arm :
    (∀ (i n : Nat) (exitFlag pollIsZero : Bool) (e : FsEventInfo),
      e.hasCreate = false → e.hasWrite = false →
      selectStep i n exitFlag pollIsZero (LoopEvent.fsEvent e) =
        SelectOutcome.waitMore) ∧
    (∀ (i n : Nat) (exitFlag pollIsZero : Bool) (e : FsEventInfo),
      e.statResult = StatResult.statError →
      selectStep i n exitFlag pollIsZero (LoopEvent.fsEvent e) =
        SelectOutcome.waitMore) := by
  constructor
  · intro i n exitFlag pollIsZero e hc hw
    rw [selectStep]
    simp [hc, hw]
  · intro i n exitFlag pollIsZero e hs
    rw [selectStep]
    by_cases hcw : (!e.hasCreate && !e.hasWrite) = true
    · rw [if_pos hcw]
    · rw [if_neg hcw, hs]

/-- Witness for `event_filter_no_arm` at concrete inputs: a pure remove
event (neither Create nor Write, stat succeeding on a matching file) is
ignored, and a Write event whose stat fails is ignored. -/
theorem event_filter_no_arm_witness :
    selectStep 0 1 false true (LoopEvent.fsEvent
      { hasCreate := false, hasWrite := false,
        statResult := StatResult.isFile, fileMatches := true }) =
      SelectOutcome.waitMore ∧
    selectStep 0 1 false true (LoopEvent.fsEvent
      { hasCreate := false, hasWrite := true,
        statResult := StatResult.statError, fileMatches := true }) =
      SelectOutcome.waitMore := by
  constructor
  · exact event_filter_no_arm.1 0 1 false true _ rfl rfl
  · exact event_filter_no_arm.2 0 1 false true _ rfl

/-- Helper: one burst step — with a deadline still in the future, the armed
timer behaves as if freshly armed by the incoming event. -/
theorem fireTimes_armed_future (d : Nat) (t : Nat) (ts : List Nat)
    (deadline : Nat) (h : t < deadline) :
    fireTimes d (t :: ts) (some deadline) = fireTimes d (t :: ts) none := by
  rw [fireTimes, fireTimes, if_neg (by omega)]

/-- C4: for a burst of matching events at strictly increasing times, each
successive pair less than `debounce` apart, exactly one timer firing — and
hence exactly one restart — results, and it occurs exactly at
`t_n + debounce` (so no earlier than `t_n + debounce`): every event while
the timer is armed only postpones the single firing. -/
theorem debounce_burst_once :
    ∀ (d : Nat) (ts : List Nat) (t : Nat), isBurst d (t :: ts) = true →
      fireTimes d (t :: ts) none = [(t :: ts).getLastD 0 + d] := by
  intro d ts
  induction ts with
  | nil =>
    intro t _
    rw [fireTimes, fireTimes]
    rfl
  | cons t2 ts' ih =>
    intro t hburst
    rw [isBurst] at hburst
    simp only [Bool.and_eq_true, decide_eq_true_iff] at hburst
    obtain ⟨⟨hlt, hgap⟩, hrest⟩ := hburst
    rw [fireTimes, fireTimes_armed_future d t2 ts' (t + d) (by omega)]
    rw [ih t2 hrest]
    rfl

/-- Witness for `debounce_burst_once` at a concrete burst: events at times
0, 100, 200 with a 300-unit debounce fire exactly once, at time 500. -/
theorem debounce_burst_once_witness :
    isBurst 300 [0, 100, 200] = true ∧
    fireTimes 300 [0, 100, 200] none = [500] := by
  refine ⟨by decide, ?_⟩
  have h := debounce_burst_once 300 [100, 200] 0 (by decide)
  simpa using h
